import Mathlib

/-!
Verification of the World.Journey.Ai chatbot services against their
natural-language specification.

The Python sources are shallowly embedded: strings are lists of Unicode
scalar values (`Str`), Python `float` scores are modelled as rationals,
Python dicts are association lists in insertion order, and the library
primitives (`str.lower`, `str.strip`, `unicodedata`) are given by explicit
tables that are faithful on the code points occurring in this development
(ASCII, the Thai block, and the Latin-1 / combining-mark characters used in
the counterexamples).

Embedded functions (from `src/world_journey_ai/services/chatbot.py` unless
noted): `BaseAIEngine._normalize`, `_search_destinations`,
`_fuzzy_search_destinations`, `_calculate_travel_relevance`,
`_normalize_input_text`, `_resolve_province`, `_levenshtein_distance`,
`_get_cached_response`, `_cache_response`, and `_levenshtein` from
`src/app.py`.
-/

namespace WorldJourney

/-- Strings are modelled as lists of Unicode scalar values. -/
abbrev Str := List Char

/-- Whitespace as recognised by Python `str.isspace` / `str.strip`
(ASCII control whitespace, space, NEL, NBSP, and the Unicode space
separators). -/
def pyIsSpace (c : Char) : Bool :=
  let n := c.toNat
  decide ((9 ≤ n ∧ n ≤ 13) ∨ (28 ≤ n ∧ n ≤ 32) ∨ n = 133 ∨ n = 160 ∨
    n = 5760 ∨ (8192 ≤ n ∧ n ≤ 8202) ∨ n = 8232 ∨ n = 8233 ∨ n = 8239 ∨
    n = 8287 ∨ n = 12288)

/-- Python `str.lower`, per character: the ASCII table; all other code
points appearing in this development (Thai block, Latin-1 signs,
combining marks) are lowercase-invariant, so the identity is faithful
there. -/
def pyLowerChar (c : Char) : Char :=
  if 65 ≤ c.toNat ∧ c.toNat ≤ 90 then Char.ofNat (c.toNat + 32) else c

/-- Python `str.lower` on a whole string. -/
def pyLower (s : Str) : Str := s.map pyLowerChar

/-- Removal of leading whitespace (the left half of Python `str.strip`). -/
def pyStripLeft (s : Str) : Str := s.dropWhile pyIsSpace

/-- Removal of trailing whitespace (the right half of Python `str.strip`). -/
def pyStripRight (s : Str) : Str := (s.reverse.dropWhile pyIsSpace).reverse

/-- Python `str.strip`: drop whitespace from both ends. -/
def pyStrip (s : Str) : Str := pyStripRight (pyStripLeft s)

/-- Unicode general category Mn (nonspacing mark) for the code points of
this development: the Combining Diacritical Marks block U+0300–U+036F and
the Thai nonspacing marks U+0E31, U+0E34–U+0E3A, U+0E47–U+0E4E. -/
def isMn (c : Char) : Bool :=
  let n := c.toNat
  decide ((768 ≤ n ∧ n ≤ 879) ∨ n = 3633 ∨ (3636 ≤ n ∧ n ≤ 3642) ∨
    (3655 ≤ n ∧ n ≤ 3662))

/-- NFKD decomposition of one character, for the code points of this
development: THAI CHARACTER SARA AM U+0E33 decomposes to NIKHAHIT U+0E4D
followed by SARA AA U+0E32, and ACUTE ACCENT U+00B4 has the compatibility
decomposition SPACE U+0020 followed by COMBINING ACUTE ACCENT U+0301;
every other code point used here is NFKD-stable. -/
def nfkdChar (c : Char) : Str :=
  if c.toNat = 3635 then [Char.ofNat 3661, Char.ofNat 3634]
  else if c.toNat = 180 then [Char.ofNat 32, Char.ofNat 769]
  else [c]

/-- NFKD of a string; canonical reordering of combining marks does not
arise for the strings considered here, so per-character decomposition is
faithful. -/
def nfkd (s : Str) : Str := s.flatMap nfkdChar

/-- Embeds `BaseAIEngine._normalize`: NFKD of the lower-cased, stripped
text, with nonspacing marks (category Mn) removed. -/
def normalize (text : Str) : Str :=
  (nfkd (pyStrip (pyLower text))).filter (fun c => !(isMn c))

/-- Python `needle in haystack` on strings: contiguous substring test
(the empty needle matches everywhere). -/
def isSub (needle : Str) : Str → Bool
  | [] => needle.isEmpty
  | c :: rest => needle.isPrefixOf (c :: rest) || isSub needle rest

/-! ### Stable descending sort

Python `list.sort(key=..., reverse=True)` is a stable sort; on a total
order it is uniquely determined, so it is embedded as a stable insertion
sort that places an element before the first strictly smaller key and
after every earlier element with an equal key. -/

/-- Stable insertion of one element into a list already sorted by
descending `key`: the element goes before the first position whose key is
not larger, so it precedes every later element with an equal key. -/
def insertDescBy {α : Type} (key : α → ℚ) (a : α) : List α → List α
  | [] => [a]
  | b :: l => if key b ≤ key a then a :: b :: l else b :: insertDescBy key a l

/-- Stable descending sort by `key` (the embedding of Python
`sort(key=..., reverse=True)`). -/
def sortDescBy {α : Type} (key : α → ℚ) : List α → List α
  | [] => []
  | a :: l => insertDescBy key a (sortDescBy key l)

theorem mem_insertDescBy {α : Type} (key : α → ℚ) (a x : α) (l : List α) :
    x ∈ insertDescBy key a l ↔ x = a ∨ x ∈ l := by
  induction l with
  | nil => simp [insertDescBy]
  | cons b t ih =>
    simp only [insertDescBy]
    split
    · simp
    · simp only [List.mem_cons, ih]
      tauto

theorem mem_sortDescBy {α : Type} (key : α → ℚ) (x : α) (l : List α) :
    x ∈ sortDescBy key l ↔ x ∈ l := by
  induction l with
  | nil => simp [sortDescBy]
  | cons a t ih => simp [sortDescBy, mem_insertDescBy, ih]

theorem sorted_insertDescBy {α : Type} (key : α → ℚ) (a : α) (l : List α)
    (h : l.Pairwise (fun x y => key y ≤ key x)) :
    (insertDescBy key a l).Pairwise (fun x y => key y ≤ key x) := by
  induction l with
  | nil => simp [insertDescBy]
  | cons b t ih =>
    rcases List.pairwise_cons.1 h with ⟨hb, ht⟩
    simp only [insertDescBy]
    split
    · rename_i hle
      refine List.pairwise_cons.2 ⟨?_, h⟩
      intro y hy
      rcases List.mem_cons.1 hy with hy | hy
      · simpa [hy] using hle
      · exact le_trans (hb y hy) hle
    · rename_i hgt
      refine List.pairwise_cons.2 ⟨?_, ih ht⟩
      intro y hy
      rcases (mem_insertDescBy key a y t).1 hy with hy | hy
      · subst hy
        exact le_of_lt (lt_of_not_le hgt)
      · exact hb y hy

theorem sorted_sortDescBy {α : Type} (key : α → ℚ) (l : List α) :
    (sortDescBy key l).Pairwise (fun x y => key y ≤ key x) := by
  induction l with
  | nil => simp [sortDescBy]
  | cons a t ih => exact sorted_insertDescBy key a _ ih

theorem filter_insertDescBy {α : Type} (key : α → ℚ) (v : ℚ) (a : α)
    (l : List α) :
    (insertDescBy key a l).filter (fun x => decide (key x = v)) =
      List.filter (fun x => decide (key x = v)) (a :: l) := by
  induction l with
  | nil => simp [insertDescBy]
  | cons b t ih =>
    simp only [insertDescBy]
    split
    · rfl
    · rename_i hgt
      have hab : key a < key b := lt_of_not_le hgt
      simp only [List.filter_cons, ih]
      by_cases hbv : key b = v
      · have hav : ¬ key a = v := fun h => absurd hab (by simp [h, hbv])
        simp [hbv, hav]
      · by_cases hav : key a = v
        · simp [hbv, hav]
        · simp [hbv, hav]

/-- Stability of the descending sort: for each key value `v`, the
elements with key `v` appear in the sorted output in their original
order. -/
theorem filter_sortDescBy {α : Type} (key : α → ℚ) (v : ℚ) (l : List α) :
    (sortDescBy key l).filter (fun x => decide (key x = v)) =
      l.filter (fun x => decide (key x = v)) := by
  induction l with
  | nil => simp [sortDescBy]
  | cons a t ih =>
    simp only [sortDescBy]
    rw [filter_insertDescBy]
    simp only [List.filter_cons]
    split
    · simp [ih]
    · simp [ih]

theorem length_insertDescBy {α : Type} (key : α → ℚ) (a : α) (l : List α) :
    (insertDescBy key a l).length = l.length + 1 := by
  induction l with
  | nil => simp [insertDescBy]
  | cons b t ih =>
    simp only [insertDescBy]
    split
    · simp
    · simp [ih]

theorem length_sortDescBy {α : Type} (key : α → ℚ) (l : List α) :
    (sortDescBy key l).length = l.length := by
  induction l with
  | nil => simp [sortDescBy]
  | cons a t ih => simp [sortDescBy, length_insertDescBy, ih]

theorem map_snd_insertDescBy {β : Type} (a : β × ℚ) (l : List (β × ℚ)) :
    (insertDescBy (fun x => x.2) a l).map Prod.snd =
      insertDescBy (fun x => x) a.2 (l.map Prod.snd) := by
  induction l with
  | nil => simp [insertDescBy]
  | cons b t ih =>
    simp only [insertDescBy, List.map_cons]
    split
    · simp
    · simp [ih]

theorem map_snd_sortDescBy {β : Type} (l : List (β × ℚ)) :
    (sortDescBy (fun x => x.2) l).map Prod.snd =
      sortDescBy (fun x => x) (l.map Prod.snd) := by
  induction l with
  | nil => simp [sortDescBy]
  | cons a t ih => simp [sortDescBy, map_snd_insertDescBy, ih]

/-! ### Levenshtein distances

Two implementations exist in the repository: the unbounded
`BaseAIEngine._levenshtein_distance` in
`src/world_journey_ai/services/chatbot.py` and the bounded `_levenshtein`
in `src/app.py`. Both run the classic row-by-row dynamic program; the
bounded one first rejects on length difference, swaps so the outer loop
runs over the shorter string, and exits early when a whole row exceeds
the bound. -/

/-- Inner loop of the Levenshtein dynamic program: `prev` is the previous
row aligned so that its first element is `previous[j-1]`, `cprev` is the
entry of the current row just computed (`current[j-1]`), and the produced
list is the rest of the current row. -/
def levRow (ca : Char) : List Nat → List Char → Nat → List Nat
  | p0 :: p1 :: ps, cb :: cbs, cprev =>
    (min (cprev + 1) (min (p1 + 1) (p0 + (if ca = cb then 0 else 1)))) ::
      levRow ca (p1 :: ps) cbs
        (min (cprev + 1) (min (p1 + 1) (p0 + (if ca = cb then 0 else 1))))
  | _, _, _ => []

/-- Outer loop of `_levenshtein_distance`: fold the rows over the
characters of `a` (1-indexed by `i`) and return the last entry of the
final row. -/
def levRows (b : List Char) : List Char → Nat → List Nat → Nat
  | [], _, prev => prev.getLastD 0
  | ca :: arest, i, prev => levRows b arest (i + 1) (i :: levRow ca prev b i)

/-- Embeds `BaseAIEngine._levenshtein_distance` (chatbot.py): plain
Levenshtein distance with early returns for equal and empty inputs. -/
def levenshtein_distance (a b : Str) : Nat :=
  if a = b then 0
  else if a = [] then b.length
  else if b = [] then a.length
  else levRows b a 1 (List.range (b.length + 1))

/-- Outer loop of the bounded `_levenshtein` (app.py): like `levRows` but
returning the sentinel `k + 1` as soon as the minimum of a completed row
exceeds the bound `k`. -/
def levRowsBounded (b : List Char) (k : Nat) : List Char → Nat → List Nat → Nat
  | [], _, prev => prev.getLastD 0
  | ca :: arest, i, prev =>
    if k < List.foldl min i (i :: levRow ca prev b i) then k + 1
    else levRowsBounded b k arest (i + 1) (i :: levRow ca prev b i)

/-- Embeds `_levenshtein` from `src/app.py`: bounded edit distance with a
sentinel `max_distance + 1`. The length-difference rejection happens
before the empty-string shortcuts, the outer loop runs over the shorter
string, and a row whose minimum exceeds the bound aborts with the
sentinel. -/
def levenshtein (a b : Str) (max_distance : Nat := 2) : Nat :=
  if a = b then 0
  else if max_distance < a.length - b.length ∨ max_distance < b.length - a.length then
    max_distance + 1
  else if a = [] then b.length
  else if b = [] then a.length
  else
    let p := if b.length < a.length then (b, a) else (a, b)
    levRowsBounded p.2 max_distance p.1 1 (List.range (p.2.length + 1))

/-! ### Province alias resolution (`_resolve_province`) -/

/-- Python dict lookup `d[key]` on the insertion-ordered association
list, as an `Option`. -/
def dictGet {β : Type} (l : List (Str × β)) (k : Str) : Option β :=
  (l.find? (fun p => p.1 == k)).map Prod.snd

/-- Similarity used by the fuzzy step of `_resolve_province`:
`1 - distance / max(len(normalized), len(alias))`, where a zero maximum
length is replaced by 1 (Python `max(...) or 1`). -/
def aliasSimilarity (normalized al : Str) : ℚ :=
  let m := max normalized.length al.length
  1 - (levenshtein_distance normalized al : ℚ) / ((if m = 0 then 1 else m : Nat) : ℚ)

/-- Step 1 of `_resolve_province`: the first alias, in insertion order,
that equals the normalized text or occurs in it as a substring of length
at least 4. -/
def exactOrSubstringMatch (aliases : List (Str × Str)) (normalized : Str) : Option Str :=
  aliases.findSome? fun p =>
    if p.1 = normalized ∨ (isSub p.1 normalized = true ∧ 4 ≤ p.1.length) then some p.2 else none

/-- Embeds `BaseAIEngine._resolve_province`: exact/substring match first;
otherwise score every alias by `aliasSimilarity`, sort descending
(stable), and accept the top alias only under the ambiguity guard
(top ≥ 0.8 with lead ≥ 0.1, or top ≥ 0.7 with lead ≥ 0.2). -/
def resolve_province (aliases : List (Str × Str)) (text : Str) : Option Str :=
  let normalized := normalize text
  match exactOrSubstringMatch aliases normalized with
  | some p => some p
  | none =>
    if normalized ≠ [] ∧ aliases ≠ [] then
      match sortDescBy (fun x => x.2)
          (aliases.map (fun p => (p.1, aliasSimilarity normalized p.1))) with
      | [] => none
      | (topAlias, topSim) :: rest =>
        let secondSim := match rest with | [] => (0 : ℚ) | (_, s) :: _ => s
        if 4/5 ≤ topSim ∧ 1/10 ≤ topSim - secondSim then dictGet aliases topAlias
        else if 7/10 ≤ topSim ∧ 1/5 ≤ topSim - secondSim then dictGet aliases topAlias
        else none
    else none

/-- Multiset of fuzzy similarities of the normalized text against every
alias. -/
def simList (aliases : List (Str × Str)) (normalized : Str) : List ℚ :=
  aliases.map fun p => aliasSimilarity normalized p.1

/-- Largest similarity (the head of the descending sort of the
similarity values). -/
def topSimilarity (sims : List ℚ) : ℚ :=
  (sortDescBy (fun x => x) sims).headD 0

/-- Second-largest similarity counting multiplicity, or 0 when there is
only one candidate. -/
def secondSimilarity (sims : List ℚ) : ℚ :=
  ((sortDescBy (fun x => x) sims).drop 1).headD 0

/-- Acceptance condition of the fuzzy step: the top candidate is taken
only when its similarity is at least 0.8 and leads the runner-up by at
least 0.1, or is at least 0.7 and leads by at least 0.2. -/
def ambiguityGuard (top second : ℚ) : Prop :=
  (4/5 ≤ top ∧ 1/10 ≤ top - second) ∨ (7/10 ≤ top ∧ 1/5 ≤ top - second)

/-! ### Destination search (`_search_destinations`, `_fuzzy_search_destinations`) -/

/-- Destination record: the dict fields used by the search code.
Missing optional fields (`item.get(..., "")`) are the empty string. -/
structure Destination where
  name : Str
  city : Str
  description : Str
  english_name : Str
deriving DecidableEq

/-- Python `" ".join(parts)`. -/
def joinSpace : List Str → Str
  | [] => []
  | [x] => x
  | x :: y :: rest => x ++ ' ' :: joinSpace (y :: rest)

/-- Combined haystack of `_search_destinations`:
`" ".join([item["name"], item.get("city", ""), item.get("description", "")])`. -/
def combinedFields (d : Destination) : Str :=
  joinSpace [d.name, d.city, d.description]

/-- Embeds `BaseAIEngine._search_destinations`: an empty (or
whitespace-only) query returns the whole catalog; otherwise keep the
items whose lower-cased haystack contains the lower-cased stripped
query, or whose tone-stripped haystack contains the tone-stripped
query. -/
def search_destinations (dests : List Destination) (query : Str) : List Destination :=
  let normalized := pyStrip (pyLower query)
  if normalized = [] then dests
  else dests.filter fun item =>
    isSub normalized (pyLower (combinedFields item)) ||
    isSub (normalize query) (normalize (combinedFields item))

/-- Word character for the regexes of chatbot.py (`\w` together with the
explicit Thai range `฀-๿`): ASCII digits, letters, underscore,
and the Thai block; faithful for the text of this development. -/
def isWordChar (c : Char) : Bool :=
  let n := c.toNat
  decide ((48 ≤ n ∧ n ≤ 57) ∨ (65 ≤ n ∧ n ≤ 90) ∨ (97 ≤ n ∧ n ≤ 122) ∨
    n = 95 ∨ (3584 ≤ n ∧ n ≤ 3711))

/-- Token set of `_fuzzy_search_destinations`: split the lower-cased text
on runs of non-word characters, drop empties, and deduplicate (Python
set semantics, first occurrences kept). -/
def tokenSet (text : Str) : List Str :=
  (((pyLower text).splitOnP (fun c => !isWordChar c)).filter (fun t => t ≠ [])).dedup

/-- Haystack of `_fuzzy_search_destinations`: name, city, description,
the english name when nonempty, and the province synonyms of the city,
joined by spaces with empty parts dropped. `provSyns` stands for
`PROVINCE_SYNONYMS.get(city, [])`. -/
def fuzzyHaystack (provSyns : Str → List Str) (item : Destination) : Str :=
  let parts := [item.name, item.city, item.description] ++
    (if item.english_name ≠ [] then [item.english_name] else []) ++ provSyns item.city
  joinSpace (parts.filter (fun p => p ≠ []))

/-- Inner fold computing the best single-token similarity (`best_partial`):
start at 0 and replace only on strict improvement, skipping empty
tokens. -/
def bestPartialGo (ratio : Str → Str → ℚ) (q : Str) : List Str → ℚ → ℚ
  | [], best => best
  | tk :: rest, best =>
    if tk = [] then bestPartialGo ratio q rest best
    else bestPartialGo ratio q rest (if best < ratio q tk then ratio q tk else best)

/-- Weighted fuzzy score of one destination:
`0.5 * sequence_similarity + 0.35 * token_jaccard + 0.15 * best_partial`.
The `SequenceMatcher.ratio` library primitive is the parameter `ratio`. -/
def destScore (ratio : Str → Str → ℚ) (provSyns : Str → List Str)
    (query : Str) (item : Destination) : ℚ :=
  let haystack := fuzzyHaystack provSyns item
  let seq := ratio (normalize query) (normalize haystack)
  let qTokens := tokenSet query
  let hayTokens := tokenSet haystack
  let interLen := (qTokens.filter (fun t => t ∈ hayTokens)).length
  let unionLen := qTokens.length + (hayTokens.filter (fun t => t ∉ qTokens)).length
  let jaccard := (interLen : ℚ) / ((if unionLen = 0 then 1 else unionLen : ℕ) : ℚ)
  let best := bestPartialGo ratio (pyLower query) hayTokens 0
  (1/2) * seq + (7/20) * jaccard + (3/20) * best

/-- Embeds `BaseAIEngine._fuzzy_search_destinations`: skip items with an
empty normalized haystack, keep those scoring at least the cutoff
(default 0.55), sort the kept pairs by score descending with the stable
sort, and return the items. -/
def fuzzy_search_destinations (ratio : Str → Str → ℚ) (provSyns : Str → List Str)
    (dests : List Destination) (query : Str) (cutoff : ℚ := 11/20) : List Destination :=
  let scored := dests.filterMap fun item =>
    if normalize (fuzzyHaystack provSyns item) = [] then none
    else if cutoff ≤ destScore ratio provSyns query item then
      some (item, destScore ratio provSyns query item)
    else none
  (sortDescBy (fun x => x.2) scored).map Prod.fst

/-! ### Travel relevance (`_calculate_travel_relevance`) and the scope check -/

/-- TRAVEL_KEYWORDS from chatbot.py, in source order. -/
def TRAVEL_KEYWORDS : List String :=
  ["เที่ยว", "ทริป", "ที่เที่ยว", "ท่องเที่ยว", "อยากเที่ยว", "อยากไป", "ไปเที่ยว", "เดินทาง",
   "ทะเล", "ภูเขา", "วัด", "ตลาด", "คาเฟ่", "โฮมสเตย์", "น้ำตก", "ดำน้ำ", "เดินป่า", "เกาะ",
   "ไนท์มาร์เก็ต", "ตลาดน้ำ", "ชายหาด", "อุทยาน", "สวน", "พิพิธภัณฑ์", "อนุสาวรีย์",
   "จังหวัด", "อำเภอ", "ตำบล", "หมู่บ้าน", "เขต", "แขวง", "ย่าน", "ชุมชน", "หมู่", "บ้าน",
   "อยู่ที่ไหน", "ใกล้กับ", "ห่างจาก", "มีอะไรบ้าง", "น่าสนใจ", "แนะนำ", "ช่วยบอก", "อยากรู้",
   "มีที่เที่ยว", "สถานที่ท่องเที่ยว", "จุดท่องเที่ยว", "แหล่งท่องเที่ยว", "ไปเที่ยวที่ไหนดี",
   "ควรไป", "น่าไป", "มีชื่อเสียง", "เด็ด", "ดัง", "โด่งดัง", "มีอะไรดีๆ", "น่าเข้าชม",
   "travel", "trip", "itinerary", "journey", "vacation", "holiday", "beach", "mountain", "temple",
   "market", "night market", "floating market", "cafe", "coffee shop", "homestay", "waterfall",
   "snorkel", "snorkeling", "diving", "hike", "hiking", "island", "old town", "museum", "park",
   "province", "district", "subdistrict", "tambon", "amphoe", "village", "town", "city", "area",
   "where is", "near to", "close to", "far from", "what to see", "what to do", "recommend",
   "suggest", "tell me about", "interesting", "attractions", "tourist spots", "worth visiting",
   "should visit", "must see", "famous for", "known for", "popular", "best places"]

/-- Keywords normalized at engine construction
(`self._normalized_keywords`). -/
def normalizedKeywords : List Str :=
  TRAVEL_KEYWORDS.map fun s => normalize s.data

/-- Boundary check on the right of a regex word: end of string or a
non-word character. -/
def boundaryAfter (s : Str) : Bool :=
  match s with
  | [] => true
  | d :: _ => !(isWordChar d)

/-- One alternative of a `\b(w1|w2|...)\b` regex matching at the start of
`s` (the alternatives consist of word characters, so the left boundary is
handled by the caller). -/
def wordAt (w s : Str) : Bool :=
  w.isPrefixOf s && boundaryAfter (s.drop w.length)

/-- Scan for a word-bounded occurrence of one of the alternatives; the
Boolean argument records whether the previous character was a word
character. -/
def hasWordMatchGo (ws : List Str) : Str → Bool → Bool
  | [], _ => false
  | c :: rest, prevW =>
    ((!prevW) && ws.any (fun w => wordAt w (c :: rest))) || hasWordMatchGo ws rest (isWordChar c)

/-- Python `re.search(r"\b(w1|w2|...)\b", t)` as a Boolean. -/
def hasWordMatch (ws : List Str) (t : Str) : Bool :=
  hasWordMatchGo ws t false

/-- Alternatives of the first question pattern. -/
def englishQuestionWords : List Str :=
  (["where", "what", "how", "when", "which", "who"] : List String).map String.data

/-- Alternatives of the second (Thai) question pattern. -/
def thaiQuestionWords : List Str :=
  (["ไป", "เที่ยว", "ที่ไหน", "อยากไป", "แนะนำ", "ช่วย"] : List String).map String.data

/-- Number of question patterns (of the three in the source) that match
the lower-cased text; each contributes 0.5 to the question score. -/
def questionScoreCount (t : Str) : Nat :=
  (if hasWordMatch englishQuestionWords t then 1 else 0) +
  (if hasWordMatch thaiQuestionWords t then 1 else 0) +
  (if t.contains '?' then 1 else 0)

/-- Embeds `BaseAIEngine._calculate_travel_relevance`: keyword hits count
1.0 each, destination-name hits 2.0 each, matched question patterns 0.5
each; the sum is capped at 5.0, divided by 5.0, and clamped to at most
1.0. `destNames` stands for `self._normalized_dest_names`. -/
def calculate_travel_relevance (destNames : List Str) (text : Str) : ℚ :=
  let normalized_text := normalize text
  let travel_score : ℚ := ((normalizedKeywords.filter (fun k => isSub k normalized_text)).length : ℚ)
  let destination_score : ℚ :=
    2 * ((destNames.filter (fun d => isSub d normalized_text)).length : ℚ)
  let question_score : ℚ := (questionScoreCount (pyLower text) : ℚ) / 2
  let total_score := min (travel_score + destination_score + question_score) 5
  min (total_score / 5) 1

/-- Embeds the scope check at step 2 of `build_reply`: the travel-only
refusal branch fires exactly when the relevance score is strictly below
0.1. -/
def scopeRefusalTriggered (relevance_score : ℚ) : Bool :=
  decide (relevance_score < 1/10)

/-! ### Input preprocessing (`_normalize_input_text`) -/

/-- Fuel-indexed engine of Python `str.replace`: scan left to right,
replacing non-overlapping occurrences. The fuel equals the input length,
so it never runs out. -/
def replaceAllGo (pat rep : Str) : Nat → Str → Str
  | _, [] => []
  | 0, s => s
  | fuel + 1, c :: rest =>
    if pat.isPrefixOf (c :: rest) && !pat.isEmpty then
      rep ++ replaceAllGo pat rep fuel (rest.drop (pat.length - 1))
    else c :: replaceAllGo pat rep fuel rest

/-- Python `s.replace(pat, rep)` for a nonempty pattern. -/
def replaceAll (pat rep s : Str) : Str :=
  replaceAllGo pat rep s.length s

/-- Engine of `re.sub(r"\s+", " ", ...)`: each maximal whitespace run
becomes a single space; the flag records whether the previous character
was whitespace. -/
def collapseWsGo : Str → Bool → Str
  | [], _ => []
  | c :: rest, prevSp =>
    if pyIsSpace c then (if prevSp then [] else [' ']) ++ collapseWsGo rest true
    else c :: collapseWsGo rest false

/-- Python `re.sub(r"\s+", " ", s)`. -/
def collapseWs (s : Str) : Str :=
  collapseWsGo s false

/-- Python `s.split()`: split on whitespace runs, dropping empties. -/
def pySplit (s : Str) : List Str :=
  (s.splitOnP pyIsSpace).filter (fun t => t ≠ [])

/-- ASCII alphabetic test (used by `str.title` on the ASCII place
names). -/
def isAsciiAlpha (c : Char) : Bool :=
  decide ((65 ≤ c.toNat ∧ c.toNat ≤ 90) ∨ (97 ≤ c.toNat ∧ c.toNat ≤ 122))

/-- ASCII uppercase of one character. -/
def pyUpperChar (c : Char) : Char :=
  if 97 ≤ c.toNat ∧ c.toNat ≤ 122 then Char.ofNat (c.toNat - 32) else c

/-- Engine of Python `str.title` for ASCII text: uppercase a letter that
starts an alphabetic run, lowercase the rest. -/
def pyTitleGo : Str → Bool → Str
  | [], _ => []
  | c :: rest, prevAlpha =>
    (if isAsciiAlpha c then (if prevAlpha then pyLowerChar c else pyUpperChar c) else c) ::
      pyTitleGo rest (isAsciiAlpha c)

/-- Python `s.title()` (ASCII fragment). -/
def pyTitle (s : Str) : Str :=
  pyTitleGo s false

/-- Thai typo-correction table of `_normalize_input_text`. -/
def thaiCorrections : List (String × String) :=
  [("เช่ยงใหม่", "เชียงใหม่"), ("ภูเก็ต", "ภูเก็ต"), ("กระบี่", "กระบี่"), ("พัทยา", "พัทยา"),
   ("หัวหิน", "หัวหิน"), ("เก่าะ", "เกาะ"), ("เข่าะ", "เกาะ"), ("ป่าตอง", "ป่าตอง"),
   ("จันท์บุรี", "จันทบุรี"), ("ระยอง", "ระยอง")]

/-- English place-name correction table of `_normalize_input_text`. -/
def englishCorrections : List (String × String) :=
  [("bangok", "bangkok"), ("chiangmai", "chiang mai"), ("phuket", "phuket"),
   ("krabi", "krabi"), ("pattaya", "pattaya"), ("huahin", "hua hin"),
   ("kohsamui", "koh samui"), ("kohphiphi", "koh phi phi")]

/-- Python `dict.get(key, default)` over an association list. -/
def lookupD (l : List (Str × Str)) (k d : Str) : Str :=
  match l.find? (fun p => p.1 == k) with
  | some p => p.2
  | none => d

/-- Python word membership in the regex class `[a-zA-Z\s\'-]`. -/
def isEnglishWordChar (c : Char) : Bool :=
  isAsciiAlpha c || pyIsSpace c || c == '\'' || c == '-'

/-- Embeds `BaseAIEngine._is_english_word`:
`re.match(r"^[a-zA-Z\s\'-]+$", word)`. -/
def is_english_word (w : Str) : Bool :=
  !w.isEmpty && w.all isEnglishWordChar

/-- Embeds `BaseAIEngine._normalize_input_text`: collapse whitespace,
apply the Thai corrections, then rebuild the text word by word, mapping
each English word through the correction table in lower case. (The
`.title()` branch compares a lower-case word against capitalized names,
so it never fires; it is embedded as in the source.) -/
def normalize_input_text (text : Str) : Str :=
  let normalized := collapseWs (pyStrip text)
  let normalized := thaiCorrections.foldl (fun acc p => replaceAll p.1.data p.2.data acc) normalized
  let corrected := (pySplit normalized).map fun w =>
    if is_english_word w then
      let cw := lookupD (englishCorrections.map (fun p => (p.1.data, p.2.data)))
        (pyLower w) (pyLower w)
      if cw = "Bangkok".data ∨ cw = "Phuket".data ∨ cw = "Krabi".data ∨ cw = "Pattaya".data then
        pyTitle cw
      else cw
    else w
  joinSpace corrected

/-! ### Response cache (`_get_cached_response`, `_cache_response`)

The two dicts `self._response_cache` and `self._cache_timestamps` are
insertion-ordered association lists; `time.time()` is passed in
explicitly as a rational `now`. The defaults set in `__init__` are
`_cache_max_age = 3600` and `_cache_max_size = 1000`. -/

/-- Cache state: the stored payloads and the insertion timestamps. -/
structure CacheState (β : Type) where
  response_cache : List (Str × β)
  cache_timestamps : List (Str × ℚ)

/-- Python `key in d` on the association list. -/
def dictMem {β : Type} (l : List (Str × β)) (k : Str) : Bool :=
  l.any fun p => p.1 == k

/-- Python `d[key] = v`: update in place when present (keeping the dict
position), else append. -/
def dictSet {β : Type} (l : List (Str × β)) (k : Str) (v : β) : List (Str × β) :=
  if dictMem l k then l.map (fun p => if p.1 == k then (k, v) else p) else l ++ [(k, v)]

/-- Python `del d[key]`. -/
def dictDel {β : Type} (l : List (Str × β)) (k : Str) : List (Str × β) :=
  l.filter fun p => !(p.1 == k)

/-- Embeds `BaseAIEngine._get_cached_response` at time `now`: returns
the stored payload while the entry is younger than `cache_max_age`,
otherwise deletes the entry (lazy expiry) and returns `none`, together
with the resulting state. -/
def get_cached_response {β : Type} (now : ℚ) (cache_key : Str) (st : CacheState β)
    (cache_max_age : ℚ := 3600) : Option β × CacheState β :=
  if dictMem st.response_cache cache_key &&
      (match dictGet st.cache_timestamps cache_key with
       | some t => decide (now - t < cache_max_age)
       | none => false) then
    (dictGet st.response_cache cache_key, st)
  else if dictMem st.response_cache cache_key then
    (none, ⟨dictDel st.response_cache cache_key, dictDel st.cache_timestamps cache_key⟩)
  else (none, st)

/-- Engine of Python `min(keys, key=lambda k: timestamps[k])`: keep the
first key seen, replacing it only on a strictly smaller timestamp, so
the earliest key among those with minimal timestamp wins. -/
def pyDictMinGo : Str → ℚ → List (Str × ℚ) → Str
  | k, _, [] => k
  | k, t, (k', t') :: rest => if t' < t then pyDictMinGo k' t' rest else pyDictMinGo k t rest

/-- Python `min(d.keys(), key=lambda k: d[k])`; `none` on an empty dict
(where Python raises `ValueError`). -/
def pyDictMinByVal (l : List (Str × ℚ)) : Option Str :=
  match l with
  | [] => none
  | (k, t) :: rest => some (pyDictMinGo k t rest)

/-- Embeds `BaseAIEngine._cache_response` at time `now`: when the cache
already holds `cache_max_size` entries, evict the key with the oldest
timestamp from both dicts, then store the payload and its timestamp.
`none` models the `ValueError` Python would raise when asked to evict
from an empty timestamp dict. -/
def cache_response {β : Type} (now : ℚ) (cache_key : Str) (response : β)
    (st : CacheState β) (cache_max_size : ℕ := 1000) : Option (CacheState β) :=
  if cache_max_size ≤ st.response_cache.length then
    match pyDictMinByVal st.cache_timestamps with
    | none => none
    | some oldest =>
      some ⟨dictSet (dictDel st.response_cache oldest) cache_key response,
            dictSet (dictDel st.cache_timestamps oldest) cache_key now⟩
  else
    some ⟨dictSet st.response_cache cache_key response,
          dictSet st.cache_timestamps cache_key now⟩

/-- Iterated insertion of `(key, payload, time)` triples, left to right. -/
def cacheInsertAll {β : Type} (maxSize : ℕ) : List (Str × β × ℚ) → CacheState β →
    Option (CacheState β)
  | [], st => some st
  | (k, v, t) :: rest, st =>
    match cache_response t k v st maxSize with
    | none => none
    | some st' => cacheInsertAll maxSize rest st'

/-- Empty cache. -/
def emptyCache (β : Type) : CacheState β := ⟨[], []⟩

/-! ### Supporting lemmas -/

theorem pyLowerChar_of_space {c : Char} (h : pyIsSpace c = true) : pyLowerChar c = c := by
  simp only [pyIsSpace, decide_eq_true_eq] at h
  simp only [pyLowerChar]
  rw [if_neg]
  omega

theorem pyStrip_all_space {q : Str} (h : ∀ c ∈ q, pyIsSpace c = true) :
    pyStrip (pyLower q) = [] := by
  have hall : ∀ c ∈ pyLower q, pyIsSpace c = true := by
    intro c hc
    rcases List.mem_map.1 hc with ⟨c', hc', rfl⟩
    rw [pyLowerChar_of_space (h c' hc')]
    exact h c' hc'
  have h1 : pyStripLeft (pyLower q) = [] := by
    simp only [pyStripLeft]
    exact List.dropWhile_eq_nil_iff.2 fun c hc => hall c hc
  simp [pyStrip, h1, pyStripRight]

/-- Sample destination used by the concrete instances below. -/
def sampleDest : Destination := ⟨"a".data, [], [], []⟩

/-! ### Claim theorems -/

/-- C6: for every destination-name list and every input text, the travel
relevance score lies in the unit interval: `0 ≤ score(text) ≤ 1`. -/
theorem c6_relevance_bounds (destNames : List Str) (text : Str) :
    0 ≤ calculate_travel_relevance destNames text ∧
      calculate_travel_relevance destNames text ≤ 1 := by
  unfold calculate_travel_relevance
  refine ⟨le_min (div_nonneg (le_min ?_ (by norm_num)) (by norm_num)) zero_le_one,
    min_le_right _ _⟩
  positivity

/-- C9 counterexample: with the default bound 2, the bounded edit
distance on an empty first argument does not return the other string's
length: `_levenshtein("", "abcd", max_distance=2)` is the sentinel 3,
not 4, because the length-difference rejection runs before the
empty-string shortcut. -/
theorem c9_counterexample :
    levenshtein [] ("abcd".data) 2 ≠ ("abcd".data).length := by decide

/-- C9 (amended): equal strings give distance 0 for every bound, and one
empty argument gives the other string's length capped by the sentinel:
`distance("", b, k) = distance(b, "", k) = min(len(b), k + 1)`. -/
theorem c9_levenshtein_base_cases (a b : Str) (k : ℕ) :
    levenshtein a a k = 0 ∧ levenshtein [] b k = min b.length (k + 1) ∧
      levenshtein b [] k = min b.length (k + 1) := by
  refine ⟨by simp [levenshtein], ?_, ?_⟩
  · unfold levenshtein
    simp only [List.length_nil]
    split_ifs with h1 h2
    · simp [← h1]
    · omega
    · omega
  · unfold levenshtein
    simp only [List.length_nil]
    split_ifs with h1 h2
    · simp [h1]
    · omega
    · omega

/-- Hit predicate as the spec sentence for Tier 1 states it: substring
containment in either direction between the normalized query and the
normalized concatenated fields. Compare `search_destinations`, which
only ever tests the query inside the haystack. -/
def specSearchHit (query : Str) (d : Destination) : Bool :=
  isSub (normalize query) (normalize (combinedFields d)) ||
    isSub (normalize (combinedFields d)) (normalize query)

/-- C8 counterexample: for the destination with name "a" and the query
"bab", the normalized fields "a" are contained in the normalized query,
so the claimed either-direction rule makes it a hit, but
`_search_destinations` returns no results. -/
theorem c8_counterexample :
    specSearchHit ("bab".data) sampleDest = true ∧
      search_destinations [sampleDest] ("bab".data) = [] := by decide

/-- C8 (amended): for a query that is nonempty after lower-casing and
stripping, a destination is a hit exactly when the lowered stripped
query occurs in the lowered fields, or the tone-stripped query occurs in
the tone-stripped fields — containment of the query in the haystack
only, at the two normalization levels. -/
theorem c8_search_hit_iff (dests : List Destination) (query : Str) (d : Destination)
    (h : ¬ pyStrip (pyLower query) = []) :
    d ∈ search_destinations dests query ↔
      d ∈ dests ∧ (isSub (pyStrip (pyLower query)) (pyLower (combinedFields d)) ||
        isSub (normalize query) (normalize (combinedFields d))) = true := by
  unfold search_destinations
  rw [if_neg h]
  exact List.mem_filter

/-- C8 witness: the amended rule applied at the query "a" and the
destination named "a". -/
theorem c8_witness : sampleDest ∈ search_destinations [sampleDest] ("a".data) :=
  (c8_search_hit_iff [sampleDest] ("a".data) sampleDest (by decide)).mpr (by decide)

/-- C10: a query that is empty or consists only of whitespace normalizes
to the empty string, and `_search_destinations` then returns the entire
catalog in order. -/
theorem c10_blank_query_returns_all (dests : List Destination) (query : Str)
    (h : ∀ c ∈ query, pyIsSpace c = true) :
    search_destinations dests query = dests := by
  unfold search_destinations
  rw [pyStrip_all_space h]
  simp

/-- C10 witness: the single-space query returns the whole catalog. -/
theorem c10_witness : search_destinations [sampleDest] (" ".data) = [sampleDest] :=
  c10_blank_query_returns_all [sampleDest] (" ".data) (by decide)

/-- C2 counterexample: `normalize` is not idempotent. On U+00B4 ACUTE
ACCENT, NFKD produces a space plus a combining acute; the mark is
filtered out, leaving a single space, which a second application strips
to the empty string. -/
theorem c2_counterexample :
    normalize (normalize ("´".data)) ≠ normalize ("´".data) := by decide

/-! ### Idempotence of `normalize` on stable characters (C2) -/

theorem dropWhile_idem (p : Char → Bool) (l : Str) :
    (l.dropWhile p).dropWhile p = l.dropWhile p := by
  induction l with
  | nil => rfl
  | cons c t ih =>
    by_cases h : p c
    · simp [List.dropWhile_cons, h, ih]
    · simp [List.dropWhile_cons, h]

theorem head_dropWhile_false {p : Char → Bool} {l t : Str} {c : Char}
    (h : l.dropWhile p = c :: t) : p c = false := by
  induction l with
  | nil => simp at h
  | cons a r ih =>
    rw [List.dropWhile_cons] at h
    by_cases ha : p a
    · rw [if_pos ha] at h
      exact ih h
    · rw [if_neg ha] at h
      injection h with h1 h2
      subst h1
      simpa using ha

theorem pyStripRight_idem (l : Str) :
    pyStripRight (pyStripRight l) = pyStripRight l := by
  unfold pyStripRight
  rw [List.reverse_reverse, dropWhile_idem]

theorem pyStripLeft_pyStripRight_pyStripLeft (l : Str) :
    pyStripLeft (pyStripRight (pyStripLeft l)) = pyStripRight (pyStripLeft l) := by
  cases hx : pyStripLeft l with
  | nil => simp [pyStripRight, pyStripLeft]
  | cons c t =>
    have hc : pyIsSpace c = false := head_dropWhile_false hx
    show pyStripLeft (pyStripRight (c :: t)) = pyStripRight (c :: t)
    have hrev : (c :: t).reverse = t.reverse ++ [c] := by simp
    rw [pyStripRight, hrev, List.dropWhile_append]
    by_cases he : (t.reverse.dropWhile pyIsSpace).isEmpty
    · rw [if_pos he]
      simp [pyStripLeft, List.dropWhile_cons, hc]
    · rw [if_neg he]
      rw [List.reverse_append]
      simp [pyStripLeft, List.dropWhile_cons, hc]

theorem pyStrip_idem (l : Str) : pyStrip (pyStrip l) = pyStrip l := by
  unfold pyStrip
  rw [pyStripLeft_pyStripRight_pyStripLeft, pyStripRight_idem]

theorem mem_of_mem_pyStrip {c : Char} {l : Str} (h : c ∈ pyStrip l) : c ∈ l := by
  unfold pyStrip pyStripRight pyStripLeft at h
  rw [List.mem_reverse] at h
  have h1 := (List.dropWhile_sublist _).mem h
  rw [List.mem_reverse] at h1
  exact (List.dropWhile_sublist _).mem h1

theorem nfkd_eq_self {s : Str} (h : ∀ c ∈ s, nfkdChar c = [c]) : nfkd s = s := by
  induction s with
  | nil => rfl
  | cons c t ih =>
    have hc := h c (by simp)
    have ht := ih fun x hx => h x (by simp [hx])
    simp only [nfkd, List.flatMap_cons] at *
    rw [hc, ht]
    rfl

theorem pyLower_eq_self {s : Str} (h : ∀ c ∈ s, pyLowerChar c = c) : pyLower s = s := by
  induction s with
  | nil => rfl
  | cons c t ih =>
    have ht := ih fun x hx => h x (by simp [hx])
    simp only [pyLower, List.map_cons] at *
    rw [h c (by simp), ht]

/-- Characters on which both passes of `normalize` act trivially: the
lower-cased character is NFKD-stable, itself lowercase-stable, and not a
nonspacing mark. All ASCII characters and unmarked Thai consonants
qualify. -/
def goodChar (c : Char) : Bool :=
  nfkdChar (pyLowerChar c) == [pyLowerChar c] &&
  pyLowerChar (pyLowerChar c) == pyLowerChar c &&
  !(isMn (pyLowerChar c))

theorem goodChar_spec {c : Char} (h : goodChar c = true) :
    nfkdChar (pyLowerChar c) = [pyLowerChar c] ∧
      pyLowerChar (pyLowerChar c) = pyLowerChar c ∧ isMn (pyLowerChar c) = false := by
  simp only [goodChar, Bool.and_eq_true, beq_iff_eq, Bool.not_eq_true'] at h
  exact ⟨h.1.1, h.1.2, h.2⟩

theorem normalize_eq_strip_lower {s : Str}
    (h : ∀ c ∈ s, goodChar c = true) :
    normalize s = pyStrip (pyLower s) := by
  have hmem : ∀ c ∈ pyStrip (pyLower s), nfkdChar c = [c] ∧ isMn c = false := by
    intro c hc
    have hc1 : c ∈ pyLower s := mem_of_mem_pyStrip hc
    rcases List.mem_map.1 hc1 with ⟨c0, hc0, rfl⟩
    rcases goodChar_spec (h c0 hc0) with ⟨h1, _, h3⟩
    exact ⟨h1, h3⟩
  unfold normalize
  rw [nfkd_eq_self fun c hc => (hmem c hc).1]
  exact List.filter_eq_self.2 fun c hc => by simp [(hmem c hc).2]

/-- C2 (amended): `normalize` is idempotent on every string whose
characters are `goodChar` (lower-casing to NFKD-stable,
lowercase-stable, non-mark code points); by `c2_counterexample` it is
not idempotent on all strings. -/
theorem c2_normalize_idempotent_on_stable (s : Str)
    (h : ∀ c ∈ s, goodChar c = true) :
    normalize (normalize s) = normalize s := by
  have hA : normalize s = pyStrip (pyLower s) := normalize_eq_strip_lower h
  have hmem : ∀ c ∈ pyStrip (pyLower s), nfkdChar c = [c] ∧ pyLowerChar c = c ∧
      isMn c = false := by
    intro c hc
    have hc1 : c ∈ pyLower s := mem_of_mem_pyStrip hc
    rcases List.mem_map.1 hc1 with ⟨c0, hc0, rfl⟩
    rcases goodChar_spec (h c0 hc0) with ⟨h1, h2, h3⟩
    exact ⟨h1, h2, h3⟩
  rw [hA]
  unfold normalize
  rw [pyLower_eq_self fun c hc => (hmem c hc).2.1]
  rw [pyStrip_idem]
  rw [nfkd_eq_self fun c hc => (hmem c hc).1]
  exact List.filter_eq_self.2 fun c hc => by simp [(hmem c hc).2.2]

/-- C2 witness: the amended idempotence applied to the ASCII string
"Hello World". -/
theorem c2_witness :
    (∀ c ∈ ("Hello World".data), goodChar c = true) ∧
      normalize (normalize ("Hello World".data)) = normalize ("Hello World".data) :=
  ⟨by decide, c2_normalize_idempotent_on_stable _ (by decide)⟩

/-! ### Cache lemmas (C3, C4) -/

theorem dictMem_eq_false_iff {β : Type} (l : List (Str × β)) (k : Str) :
    dictMem l k = false ↔ ∀ p ∈ l, p.1 ≠ k := by
  simp only [dictMem, List.any_eq_false, beq_iff_eq]

theorem dictGet_mapReplace {β : Type} (l : List (Str × β)) (k : Str) (v : β)
    (hm : dictMem l k = true) :
    dictGet (l.map (fun p => if p.1 == k then (k, v) else p)) k = some v := by
  induction l with
  | nil => exact absurd hm (by simp [dictMem])
  | cons p t ih =>
    by_cases hp : (p.1 == k) = true
    · rw [List.map_cons, if_pos hp]
      unfold dictGet
      rw [List.find?_cons_of_pos _ (by exact beq_self_eq_true k)]
      rfl
    · have hm' : dictMem t k = true := by
        unfold dictMem at hm ⊢
        rw [List.any_cons] at hm
        rcases (Bool.or_eq_true _ _).mp hm with h | h
        · exact absurd h hp
        · exact h
      rw [List.map_cons, if_neg hp]
      unfold dictGet at ih ⊢
      rw [List.find?_cons_of_neg _ (by exact hp)]
      exact ih hm'

theorem dictGet_append_single {β : Type} (l : List (Str × β)) (k : Str) (v : β)
    (h : ∀ p ∈ l, p.1 ≠ k) : dictGet (l ++ [(k, v)]) k = some v := by
  induction l with
  | nil =>
    unfold dictGet
    rw [List.nil_append, List.find?_cons_of_pos _ (by exact beq_self_eq_true k)]
    rfl
  | cons p t ih =>
    have hp : ¬ (p.1 == k) = true := by
      simpa [beq_iff_eq] using h p (by exact List.mem_cons_self p t)
    unfold dictGet at ih ⊢
    rw [List.cons_append, List.find?_cons_of_neg _ (by exact hp)]
    exact ih fun q hq => h q (List.mem_cons_of_mem p hq)

theorem dictGet_dictSet {β : Type} (l : List (Str × β)) (k : Str) (v : β) :
    dictGet (dictSet l k v) k = some v := by
  unfold dictSet
  by_cases hm : dictMem l k
  · rw [if_pos hm]
    exact dictGet_mapReplace l k v hm
  · rw [if_neg hm]
    exact dictGet_append_single l k v
      ((dictMem_eq_false_iff l k).1 (Bool.not_eq_true _ ▸ hm))

theorem dictMem_of_dictGet_some {β : Type} {l : List (Str × β)} {k : Str} {v : β}
    (h : dictGet l k = some v) : dictMem l k = true := by
  by_contra hm
  have hall := (dictMem_eq_false_iff l k).1 (Bool.not_eq_true _ ▸ hm)
  have : l.find? (fun p => p.1 == k) = none :=
    List.find?_eq_none.2 fun p hp => by simp [hall p hp]
  simp [dictGet, this] at h

theorem dictMem_dictSet_self {β : Type} (l : List (Str × β)) (k : Str) (v : β) :
    dictMem (dictSet l k v) k = true :=
  dictMem_of_dictGet_some (dictGet_dictSet l k v)

theorem dictMem_dictDel_self {β : Type} (l : List (Str × β)) (k : Str) :
    dictMem (dictDel l k) k = false := by
  rw [dictMem_eq_false_iff]
  intro p hp
  have := List.of_mem_filter hp
  simpa using this

theorem dictGet_isSome {β : Type} (l : List (Str × β)) (k : Str)
    (h : ∃ p ∈ l, p.1 = k) : (dictGet l k).isSome = true := by
  unfold dictGet
  rcases hfind : l.find? (fun r => r.1 == k) with _ | r
  · rw [List.find?_eq_none] at hfind
    rcases h with ⟨p, hp, hk⟩
    exact absurd (by simp [hk] : (p.1 == k) = true) (by simpa using hfind p hp)
  · rw [hfind]
    rfl

/-- Shape of a successful `cache_response`: both dicts end with the new
key freshly set. -/
theorem cache_response_shape {β : Type} {now : ℚ} {k : Str} {v : β}
    {st st' : CacheState β} {maxSize : ℕ}
    (hins : cache_response now k v st maxSize = some st') :
    ∃ rc0 ts0, st' = ⟨dictSet rc0 k v, dictSet ts0 k now⟩ := by
  unfold cache_response at hins
  split at hins
  · split at hins
    · exact absurd hins (by simp)
    · exact ⟨_, _, (Option.some_injective _ hins).symm⟩
  · exact ⟨_, _, (Option.some_injective _ hins).symm⟩

/-- C3: after a successful store of payload `v` under key `k` at time
`t0`, a get at a time `t` strictly within the TTL (default 3600 s)
returns the stored payload and leaves the state unchanged, while a get
at or past expiry returns `none` and removes the key from both the
payload dict and the timestamp dict (lazy expiry). -/
theorem c3_cache_ttl {β : Type} (st st' : CacheState β) (maxSize : ℕ) (k : Str)
    (v : β) (t0 t : ℚ)
    (hins : cache_response t0 k v st maxSize = some st') :
    (t - t0 < 3600 → get_cached_response t k st' = (some v, st')) ∧
    (3600 ≤ t - t0 →
      (get_cached_response t k st').1 = none ∧
      dictMem (get_cached_response t k st').2.response_cache k = false ∧
      dictMem (get_cached_response t k st').2.cache_timestamps k = false) := by
  rcases cache_response_shape hins with ⟨rc0, ts0, rfl⟩
  have hrc : dictGet (dictSet rc0 k v) k = some v := dictGet_dictSet rc0 k v
  have hts : dictGet (dictSet ts0 k t0) k = some t0 := dictGet_dictSet ts0 k t0
  have hmem : dictMem (dictSet rc0 k v) k = true := dictMem_dictSet_self rc0 k v
  constructor
  · intro hfresh
    unfold get_cached_response
    rw [if_pos]
    · rw [hrc]
    · simp only [hmem, hts, Bool.true_and]
      exact decide_eq_true hfresh
  · intro hexp
    unfold get_cached_response
    rw [if_neg, if_pos hmem]
    · exact ⟨rfl, dictMem_dictDel_self _ k, dictMem_dictDel_self _ k⟩
    · simp only [hmem, hts, Bool.true_and]
      simp only [decide_eq_true_eq]
      exact not_lt.2 hexp

/-- C3 witness: store under key "k" at time 0 into the empty cache; a
get at time 1 returns the payload, a get at time 3600 expires it. -/
theorem c3_witness :
    (get_cached_response 1 ("k".data) ⟨[(("k".data), 7)], [(("k".data), 0)]⟩ =
      (some 7, ⟨[(("k".data), 7)], [(("k".data), 0)]⟩) ∧
     (get_cached_response 3600 ("k".data)
        (⟨[(("k".data), 7)], [(("k".data), 0)]⟩ : CacheState ℕ)).1 = none) := by
  have hins : cache_response 0 ("k".data) 7 (emptyCache ℕ) 1000 =
      some ⟨[(("k".data), 7)], [(("k".data), 0)]⟩ := rfl
  exact ⟨(c3_cache_ttl (emptyCache ℕ) _ 1000 ("k".data) 7 0 1 hins).1 (by norm_num),
    ((c3_cache_ttl (emptyCache ℕ) _ 1000 ("k".data) 7 0 3600 hins).2 (by norm_num)).1⟩

theorem dictMem_append {β : Type} (l1 l2 : List (Str × β)) (k : Str) :
    dictMem (l1 ++ l2) k = (dictMem l1 k || dictMem l2 k) := by
  simp [dictMem, List.any_append]

theorem dictSet_append {β : Type} (l : List (Str × β)) (k : Str) (v : β)
    (h : dictMem l k = false) : dictSet l k v = l ++ [(k, v)] := by
  unfold dictSet
  rw [if_neg (by simp [h])]

theorem dictDel_eq_self {β : Type} (l : List (Str × β)) (k : Str)
    (h : dictMem l k = false) : dictDel l k = l := by
  unfold dictDel
  apply List.filter_eq_self.2
  intro p hp
  have hne := (dictMem_eq_false_iff l k).1 h p hp
  simp [hne]

theorem dictDel_cons_head {β : Type} (k : Str) (x : β) (l : List (Str × β))
    (h : dictMem l k = false) : dictDel ((k, x) :: l) k = l := by
  have h2 := dictDel_eq_self l k h
  unfold dictDel at h2 ⊢
  rw [List.filter_cons, if_neg (by simp), h2]

theorem pyDictMinGo_first (k : Str) (t : ℚ) (rest : List (Str × ℚ))
    (h : ∀ p ∈ rest, t ≤ p.2) : pyDictMinGo k t rest = k := by
  induction rest with
  | nil => rfl
  | cons p r ih =>
    obtain ⟨k', t'⟩ := p
    unfold pyDictMinGo
    rw [if_neg (not_lt.2 (h (k', t') (by simp)))]
    exact ih fun q hq => h q (by simp [hq])

/-- Filling phase: inserting fresh, distinct keys into a cache that
stays under capacity appends them in order to both dicts. -/
theorem cacheInsertAll_fill {β : Type} (maxSize : ℕ) (es : List (Str × β × ℚ))
    (st : CacheState β)
    (hlen : st.response_cache.length + es.length ≤ maxSize)
    (hfresh : ∀ e ∈ es, dictMem st.response_cache e.1 = false ∧
      dictMem st.cache_timestamps e.1 = false)
    (hnodup : (es.map fun e => e.1).Nodup) :
    cacheInsertAll maxSize es st =
      some ⟨st.response_cache ++ es.map (fun e => (e.1, e.2.1)),
            st.cache_timestamps ++ es.map (fun e => (e.1, e.2.2))⟩ := by
  induction es generalizing st with
  | nil => simp [cacheInsertAll]
  | cons e rest ih =>
    obtain ⟨k, v, t⟩ := e
    have hlt : st.response_cache.length < maxSize := by
      simp only [List.length_cons] at hlen
      omega
    have hek := hfresh (k, v, t) (by simp)
    have hstep : cache_response t k v st maxSize =
        some ⟨st.response_cache ++ [(k, v)], st.cache_timestamps ++ [(k, t)]⟩ := by
      unfold cache_response
      rw [if_neg (not_le.2 hlt), dictSet_append _ _ _ hek.1, dictSet_append _ _ _ hek.2]
    have hmk : ∀ e' ∈ rest, e'.1 ≠ k := by
      intro e' he'
      have := (List.nodup_cons.1 hnodup).1
      intro hkk
      exact this (hkk ▸ List.mem_map_of_mem (fun e => e.1) he')
    have ihres := ih ⟨st.response_cache ++ [(k, v)], st.cache_timestamps ++ [(k, t)]⟩
      (by simp only [List.length_append, List.length_cons] at hlen ⊢; simp; omega)
      (by
        intro e' he'
        constructor
        · rw [dictMem_append, (hfresh e' (by simp [he'])).1]
          simp [dictMem, Ne.symm (hmk e' he')]
        · rw [dictMem_append, (hfresh e' (by simp [he'])).2]
          simp [dictMem, Ne.symm (hmk e' he')])
      ((List.nodup_cons.1 hnodup).2)
    show (match cache_response t k v st maxSize with
      | none => none
      | some st' => cacheInsertAll maxSize rest st') = _
    rw [hstep]
    show cacheInsertAll maxSize rest _ = _
    rw [ihres]
    simp

theorem cacheInsertAll_append {β : Type} (maxSize : ℕ) (l1 l2 : List (Str × β × ℚ))
    (st : CacheState β) :
    cacheInsertAll maxSize (l1 ++ l2) st =
      (cacheInsertAll maxSize l1 st).bind (cacheInsertAll maxSize l2) := by
  induction l1 generalizing st with
  | nil => simp [cacheInsertAll]
  | cons e r ih =>
    obtain ⟨k, v, t⟩ := e
    rcases hres : cache_response t k v st maxSize with _ | st'
    · simp [cacheInsertAll, hres]
    · simp [cacheInsertAll, hres, ih st']

/-- C4: starting from the empty cache with positive capacity `maxSize`,
inserting `maxSize + 1` entries with distinct keys at nondecreasing
times leaves exactly `maxSize` entries: all but the first, in insertion
order. The evicted key is the earliest-inserted one (the head), which is
no longer present. -/
theorem c4_cache_eviction {β : Type} (maxSize : ℕ) (entries : List (Str × β × ℚ))
    (hpos : 0 < maxSize)
    (hlen : entries.length = maxSize + 1)
    (hkeys : (entries.map fun e => e.1).Nodup)
    (htimes : (entries.map fun e => e.2.2).Pairwise (· ≤ ·)) :
    cacheInsertAll maxSize entries (emptyCache β) =
      some ⟨(entries.drop 1).map (fun e => (e.1, e.2.1)),
            (entries.drop 1).map (fun e => (e.1, e.2.2))⟩ ∧
    ((entries.drop 1).map (fun e => (e.1, e.2.1))).length = maxSize ∧
    dictMem ((entries.drop 1).map (fun e => (e.1, e.2.1)))
      ((entries.map fun e => e.1).headD []) = false := by
  have hne : entries ≠ [] := by
    intro h
    rw [h] at hlen
    simp only [List.length_nil] at hlen
    omega
  obtain ⟨front, last, rfl⟩ : ∃ front last, entries = front ++ [last] :=
    ⟨entries.dropLast, entries.getLast hne, (List.dropLast_append_getLast hne).symm⟩
  have hfl : front.length = maxSize := by
    rw [List.length_append, List.length_cons, List.length_nil] at hlen
    omega
  have hfne : front ≠ [] := by
    intro h
    rw [h] at hfl
    simp only [List.length_nil] at hfl
    omega
  obtain ⟨f0, ftail, rfl⟩ : ∃ f0 ftail, front = f0 :: ftail := by
    cases front with
    | nil => exact absurd rfl hfne
    | cons a l => exact ⟨a, l, rfl⟩
  obtain ⟨k0, v0, t0⟩ := f0
  obtain ⟨kL, vL, tL⟩ := last
  have hfl' : ftail.length + 1 = maxSize := by
    rw [List.length_cons] at hfl
    omega
  have hkeysApp : (((⟨k0, v0, t0⟩ : Str × β × ℚ) :: ftail).map (fun e => e.1) ++ [kL]).Nodup := by
    simp only [List.cons_append, List.map_cons, List.map_append, List.map_nil] at hkeys ⊢
    exact hkeys
  have hfrontK : (((⟨k0, v0, t0⟩ : Str × β × ℚ) :: ftail).map (fun e => e.1)).Nodup :=
    hkeysApp.of_append_left
  have hk0notail : ∀ e ∈ ftail, e.1 ≠ k0 := by
    intro e he heq
    rw [List.map_cons] at hfrontK
    have h1 := (List.nodup_cons.1 hfrontK).1
    exact h1 (heq ▸ List.mem_map_of_mem (fun e => e.1) he)
  have hdisj := (List.nodup_append.1 hkeysApp).2.2
  have hkLfresh : ∀ e ∈ ftail, e.1 ≠ kL := by
    intro e he heq
    have hmem : kL ∈ ((⟨k0, v0, t0⟩ : Str × β × ℚ) :: ftail).map (fun e => e.1) := by
      rw [List.map_cons]
      exact List.mem_cons_of_mem _ (heq ▸ List.mem_map_of_mem (fun e => e.1) he)
    exact hdisj hmem (List.mem_singleton_self kL)
  have hk0notKL : k0 ≠ kL := by
    intro heq
    refine hdisj ?_ (List.mem_singleton_self kL)
    rw [List.map_cons, ← heq]
    exact List.mem_cons_self _ _
  have ht0min : ∀ e ∈ ftail, t0 ≤ e.2.2 := by
    intro e he
    rw [List.cons_append, List.map_cons] at htimes
    have h1 := List.pairwise_cons.1 htimes
    refine h1.1 e.2.2 ?_
    rw [List.map_append]
    exact List.mem_append_left _ (List.mem_map_of_mem (fun e => e.2.2) he)
  have hfill := cacheInsertAll_fill maxSize ((⟨k0, v0, t0⟩ : Str × β × ℚ) :: ftail)
    (emptyCache β)
    (by
      show (0 : ℕ) + (ftail.length + 1) ≤ maxSize
      omega)
    (fun e he => ⟨rfl, rfl⟩)
    hfrontK
  have hfill' : cacheInsertAll maxSize ((⟨k0, v0, t0⟩ : Str × β × ℚ) :: ftail) (emptyCache β) =
      some ⟨((⟨k0, v0, t0⟩ : Str × β × ℚ) :: ftail).map (fun e => (e.1, e.2.1)),
            ((⟨k0, v0, t0⟩ : Str × β × ℚ) :: ftail).map (fun e => (e.1, e.2.2))⟩ := by
    rw [hfill]
    rfl
  have hmin : pyDictMinByVal (((⟨k0, v0, t0⟩ : Str × β × ℚ) :: ftail).map
      (fun e => (e.1, e.2.2))) = some k0 := by
    rw [List.map_cons]
    show some (pyDictMinGo k0 t0 (ftail.map fun e => (e.1, e.2.2))) = some k0
    rw [pyDictMinGo_first]
    intro p hp
    rcases List.mem_map.1 hp with ⟨e, he, rfl⟩
    exact ht0min e he
  have hdelrc : dictDel (((⟨k0, v0, t0⟩ : Str × β × ℚ) :: ftail).map
      (fun e => (e.1, e.2.1))) k0 = ftail.map (fun e => (e.1, e.2.1)) := by
    rw [List.map_cons]
    apply dictDel_cons_head
    rw [dictMem_eq_false_iff]
    intro p hp
    rcases List.mem_map.1 hp with ⟨e, he, rfl⟩
    exact hk0notail e he
  have hdelts : dictDel (((⟨k0, v0, t0⟩ : Str × β × ℚ) :: ftail).map
      (fun e => (e.1, e.2.2))) k0 = ftail.map (fun e => (e.1, e.2.2)) := by
    rw [List.map_cons]
    apply dictDel_cons_head
    rw [dictMem_eq_false_iff]
    intro p hp
    rcases List.mem_map.1 hp with ⟨e, he, rfl⟩
    exact hk0notail e he
  have hsetrc : dictSet (ftail.map (fun e => (e.1, e.2.1))) kL vL =
      ftail.map (fun e => (e.1, e.2.1)) ++ [(kL, vL)] := by
    apply dictSet_append
    rw [dictMem_eq_false_iff]
    intro p hp
    rcases List.mem_map.1 hp with ⟨e, he, rfl⟩
    exact hkLfresh e he
  have hsetts : dictSet (ftail.map (fun e => (e.1, e.2.2))) kL tL =
      ftail.map (fun e => (e.1, e.2.2)) ++ [(kL, tL)] := by
    apply dictSet_append
    rw [dictMem_eq_false_iff]
    intro p hp
    rcases List.mem_map.1 hp with ⟨e, he, rfl⟩
    exact hkLfresh e he
  have hresp : cache_response tL kL vL
      ⟨((⟨k0, v0, t0⟩ : Str × β × ℚ) :: ftail).map (fun e => (e.1, e.2.1)),
        ((⟨k0, v0, t0⟩ : Str × β × ℚ) :: ftail).map (fun e => (e.1, e.2.2))⟩ maxSize =
      some ⟨(ftail.map (fun e => (e.1, e.2.1))) ++ [(kL, vL)],
            (ftail.map (fun e => (e.1, e.2.2))) ++ [(kL, tL)]⟩ := by
    unfold cache_response
    dsimp only
    rw [if_pos (by
      rw [List.length_map, List.length_cons]
      omega)]
    rw [hmin]
    simp only [hdelrc, hdelts, hsetrc, hsetts]
  have hdrop : ((((⟨k0, v0, t0⟩ : Str × β × ℚ) :: ftail) ++ [(⟨kL, vL, tL⟩ : Str × β × ℚ)]).drop 1) =
      ftail ++ [(⟨kL, vL, tL⟩ : Str × β × ℚ)] := by
    rw [List.cons_append, List.drop_one, List.tail_cons]
  refine ⟨?_, ?_, ?_⟩
  · rw [cacheInsertAll_append, hfill']
    rw [Option.some_bind]
    have hlast : cacheInsertAll maxSize [(⟨kL, vL, tL⟩ : Str × β × ℚ)]
        ⟨((⟨k0, v0, t0⟩ : Str × β × ℚ) :: ftail).map (fun e => (e.1, e.2.1)),
          ((⟨k0, v0, t0⟩ : Str × β × ℚ) :: ftail).map (fun e => (e.1, e.2.2))⟩ =
        some ⟨(ftail.map (fun e => (e.1, e.2.1))) ++ [(kL, vL)],
              (ftail.map (fun e => (e.1, e.2.2))) ++ [(kL, tL)]⟩ := by
      show (match cache_response tL kL vL _ maxSize with
        | none => none
        | some st' => cacheInsertAll maxSize [] st') = _
      rw [hresp]
      rfl
    rw [hlast, hdrop]
    rw [List.map_append, List.map_append]
    rfl
  · rw [hdrop, List.length_map, List.length_append, List.length_cons, List.length_nil]
    omega
  · rw [hdrop]
    have hhead : ((((⟨k0, v0, t0⟩ : Str × β × ℚ) :: ftail) ++
        [(⟨kL, vL, tL⟩ : Str × β × ℚ)]).map (fun e => e.1)).headD [] = k0 := by
      rw [List.cons_append, List.map_cons, List.headD_cons]
    rw [hhead, dictMem_eq_false_iff]
    intro p hp
    rw [List.map_append] at hp
    rcases List.mem_append.1 hp with hp | hp
    · rcases List.mem_map.1 hp with ⟨e, he, rfl⟩
      exact hk0notail e he
    · rcases List.mem_singleton.1 hp with rfl
      exact fun heq => hk0notKL heq.symm

/-- C4 witness: capacity 1, two inserts; the first entry "a" is evicted
and only "b" remains. -/
theorem c4_witness :
    cacheInsertAll 1 [(("a".data), (0 : ℕ), (0 : ℚ)), (("b".data), 1, 1)] (emptyCache ℕ) =
      some ⟨[(("b".data), 1)], [(("b".data), (1 : ℚ))]⟩ :=
  (c4_cache_eviction 1 [(("a".data), (0 : ℕ), (0 : ℚ)), (("b".data), 1, 1)]
    (by norm_num) rfl (by decide)
    (by
      refine List.Pairwise.cons ?_ (List.pairwise_singleton _ _)
      intro b hb
      rcases List.mem_singleton.1 hb with rfl
      norm_num)).1

/-! ### Fuzzy search properties (C5) -/

/-- Characterisation of a member of the scored list built by
`_fuzzy_search_destinations`: it pairs a catalog item with its score,
the normalized haystack is nonempty, and the score reaches the cutoff. -/
theorem mem_fuzzyScored (ratio : Str → Str → ℚ) (provSyns : Str → List Str)
    (dests : List Destination) (query : Str) (pr : Destination × ℚ)
    (hpr : pr ∈ dests.filterMap (fun item =>
      if normalize (fuzzyHaystack provSyns item) = [] then none
      else if (11 : ℚ)/20 ≤ destScore ratio provSyns query item then
        some (item, destScore ratio provSyns query item)
      else none)) :
    pr.1 ∈ dests ∧ pr.2 = destScore ratio provSyns query pr.1 ∧
      ¬ normalize (fuzzyHaystack provSyns pr.1) = [] ∧
      (11 : ℚ)/20 ≤ destScore ratio provSyns query pr.1 := by
  rcases List.mem_filterMap.1 hpr with ⟨item, hitem, hf⟩
  by_cases h1 : normalize (fuzzyHaystack provSyns item) = []
  · rw [if_pos h1] at hf
    exact absurd hf (by simp)
  · rw [if_neg h1] at hf
    by_cases h2 : (11 : ℚ)/20 ≤ destScore ratio provSyns query item
    · rw [if_pos h2] at hf
      have hpr' : pr = (item, destScore ratio provSyns query item) :=
        (Option.some_injective _ hf).symm
      subst hpr'
      exact ⟨hitem, rfl, h1, h2⟩
    · rw [if_neg h2] at hf
      exact absurd hf (by simp)

theorem map_fst_filter_snd_fuzzyScored (ratio : Str → Str → ℚ)
    (provSyns : Str → List Str) (dests : List Destination) (query : Str) (v : ℚ) :
    (((dests.filterMap (fun item =>
        if normalize (fuzzyHaystack provSyns item) = [] then none
        else if (11 : ℚ)/20 ≤ destScore ratio provSyns query item then
          some (item, destScore ratio provSyns query item)
        else none)).filter (fun pr => decide (pr.2 = v))).map Prod.fst) =
      dests.filter (fun d => (!(normalize (fuzzyHaystack provSyns d)).isEmpty) &&
        decide ((11 : ℚ)/20 ≤ destScore ratio provSyns query d) &&
        decide (destScore ratio provSyns query d = v)) := by
  induction dests with
  | nil => rfl
  | cons d t ih =>
    rw [List.filterMap_cons, List.filter_cons]
    by_cases h1 : normalize (fuzzyHaystack provSyns d) = []
    · rw [if_pos h1]
      have : (normalize (fuzzyHaystack provSyns d)).isEmpty = true := by
        rw [h1]
        rfl
      simp only [this, Bool.not_true, Bool.false_and, if_false]
      exact ih
    · rw [if_neg h1]
      have hne : (normalize (fuzzyHaystack provSyns d)).isEmpty = false := by
        rcases hx : normalize (fuzzyHaystack provSyns d) with _ | ⟨c, r⟩
        · exact absurd hx h1
        · rfl
      by_cases h2 : (11 : ℚ)/20 ≤ destScore ratio provSyns query d
      · rw [if_pos h2, List.filter_cons]
        by_cases h3 : destScore ratio provSyns query d = v
        · have h2v : (11 : ℚ)/20 ≤ v := h3 ▸ h2
          simp [h2, h3, h2v, hne, ih]
        · simp [h2, h3, hne, ih]
      · rw [if_neg h2]
        simp only [hne, Bool.not_false, Bool.true_and]
        have : decide ((11 : ℚ)/20 ≤ destScore ratio provSyns query d) = false := by
          simp [h2]
        simp only [this, Bool.false_and, if_false]
        exact ih

/-- C5: every destination returned by the Tier-2 fuzzy search scores at
least the 0.55 cutoff under the weighted sum
`0.5 * seq + 0.35 * jaccard + 0.15 * best_token`; the returned list is
sorted by descending score; and for every score value the equal-scored
destinations appear in catalog order (the equal-score subsequence of the
output is the catalog-order filter). The `SequenceMatcher.ratio`
primitive is universally quantified. -/
theorem c5_fuzzy_search_spec (ratio : Str → Str → ℚ) (provSyns : Str → List Str)
    (dests : List Destination) (query : Str) (v : ℚ) :
    (∀ d ∈ fuzzy_search_destinations ratio provSyns dests query,
      (11 : ℚ)/20 ≤ destScore ratio provSyns query d) ∧
    ((fuzzy_search_destinations ratio provSyns dests query).map
      (destScore ratio provSyns query)).Pairwise (fun a b => b ≤ a) ∧
    ((fuzzy_search_destinations ratio provSyns dests query).filter
      (fun d => decide (destScore ratio provSyns query d = v)) =
      dests.filter (fun d => (!(normalize (fuzzyHaystack provSyns d)).isEmpty) &&
        decide ((11 : ℚ)/20 ≤ destScore ratio provSyns query d) &&
        decide (destScore ratio provSyns query d = v))) := by
  refine ⟨?_, ?_, ?_⟩
  · intro d hd
    unfold fuzzy_search_destinations at hd
    rcases List.mem_map.1 hd with ⟨pr, hpr, rfl⟩
    rw [mem_sortDescBy] at hpr
    exact (mem_fuzzyScored ratio provSyns dests query pr hpr).2.2.2
  · unfold fuzzy_search_destinations
    rw [List.map_map]
    have hsorted := sorted_sortDescBy (fun x : Destination × ℚ => x.2)
      (dests.filterMap (fun item =>
        if normalize (fuzzyHaystack provSyns item) = [] then none
        else if (11 : ℚ)/20 ≤ destScore ratio provSyns query item then
          some (item, destScore ratio provSyns query item)
        else none))
    rw [List.pairwise_map]
    refine hsorted.imp_of_mem ?_
    intro a b ha hb hab
    rw [mem_sortDescBy] at ha hb
    have ha2 := (mem_fuzzyScored ratio provSyns dests query a ha).2.1
    have hb2 := (mem_fuzzyScored ratio provSyns dests query b hb).2.1
    simpa [Function.comp, ← ha2, ← hb2] using hab
  · unfold fuzzy_search_destinations
    rw [List.filter_map]
    have hcongr : ((sortDescBy (fun x : Destination × ℚ => x.2)
        (dests.filterMap (fun item =>
          if normalize (fuzzyHaystack provSyns item) = [] then none
          else if (11 : ℚ)/20 ≤ destScore ratio provSyns query item then
            some (item, destScore ratio provSyns query item)
          else none))).filter
        ((fun d => decide (destScore ratio provSyns query d = v)) ∘ Prod.fst)) =
        ((sortDescBy (fun x : Destination × ℚ => x.2)
        (dests.filterMap (fun item =>
          if normalize (fuzzyHaystack provSyns item) = [] then none
          else if (11 : ℚ)/20 ≤ destScore ratio provSyns query item then
            some (item, destScore ratio provSyns query item)
          else none))).filter (fun x => decide (x.2 = v))) := by
      apply List.filter_congr
      intro pr hpr
      rw [mem_sortDescBy] at hpr
      have h2 := (mem_fuzzyScored ratio provSyns dests query pr hpr).2.1
      simp [Function.comp, h2]
    rw [hcongr, filter_sortDescBy]
    exact map_fst_filter_snd_fuzzyScored ratio provSyns dests query v

/-- C5 witness: with the constant similarity 1, no synonyms, and the
query "a" against the catalog `[sampleDest]`, the destination is
returned and the cutoff bound follows from the theorem. -/
theorem c5_witness :
    sampleDest ∈ fuzzy_search_destinations (fun _ _ => 1) (fun _ => []) [sampleDest] ("a".data) ∧
      (11 : ℚ)/20 ≤ destScore (fun _ _ => 1) (fun _ => []) ("a".data) sampleDest := by
  have hhay : fuzzyHaystack (fun _ => []) sampleDest = "a".data := by decide
  have hnorm : normalize (fuzzyHaystack (fun _ => []) sampleDest) = "a".data := by decide
  have hdata : ("a".data) = ['a'] := rfl
  have htok2 : tokenSet ['a'] = [['a']] := by decide
  have hbest2 : bestPartialGo (fun _ _ => (1 : ℚ)) (pyLower ['a']) [['a']] 0 = 1 := by
    unfold bestPartialGo
    rw [if_neg (by simp)]
    unfold bestPartialGo
    norm_num
  have hfil1 : List.filter (fun t => decide (t ∈ ([['a']] : List Str))) [['a']] = [['a']] := by
    decide
  have hfil2 : List.filter (fun t => decide (t ∉ ([['a']] : List Str))) [['a']] = [] := by
    decide
  have hscore : destScore (fun _ _ => 1) (fun _ => []) ("a".data) sampleDest = 1 := by
    unfold destScore
    rw [hhay]
    dsimp only
    rw [htok2, hfil1, hfil2, hbest2]
    norm_num
  have hmem : sampleDest ∈ fuzzy_search_destinations (fun _ _ => 1) (fun _ => [])
      [sampleDest] ("a".data) := by
    unfold fuzzy_search_destinations
    rw [List.filterMap_cons, List.filterMap_nil]
    rw [if_neg (by rw [hnorm, hdata]; simp)]
    rw [if_pos (by rw [hscore]; norm_num)]
    unfold sortDescBy sortDescBy insertDescBy
    rw [List.map_cons, List.map_nil]
    exact List.mem_singleton_self _
  exact ⟨hmem,
    (c5_fuzzy_search_spec (fun _ _ => 1) (fun _ => []) [sampleDest] ("a".data) 0).1
      sampleDest hmem⟩

/-! ### Province resolution (C1) -/

/-- C1: for an input whose normalization matches no alias exactly and
contains no alias of length ≥ 4 as a substring, `_resolve_province`
returns a canonical province exactly when the input is nonempty, some
alias exists, and the ambiguity guard holds for the top and second-best
fuzzy similarities; in every other case it returns `None`. -/
theorem c1_resolve_ambiguity_guard (aliases : List (Str × Str)) (text : Str)
    (hnm : ∀ p ∈ aliases, ¬(p.1 = normalize text ∨
      (isSub p.1 (normalize text) = true ∧ 4 ≤ p.1.length))) :
    (resolve_province aliases text).isSome = true ↔
      (normalize text ≠ [] ∧ aliases ≠ [] ∧
        ambiguityGuard (topSimilarity (simList aliases (normalize text)))
          (secondSimilarity (simList aliases (normalize text)))) := by
  have hes : exactOrSubstringMatch aliases (normalize text) = none := by
    unfold exactOrSubstringMatch
    rw [List.findSome?_eq_none_iff]
    intro p hp
    rw [if_neg (hnm p hp)]
  unfold resolve_province
  dsimp only
  rw [hes]
  by_cases hn : normalize text = []
  · rw [if_neg (by simp [hn])]
    simp [hn]
  · by_cases ha : aliases = []
    · rw [if_neg (by simp [ha])]
      simp [ha]
    · rw [if_pos ⟨hn, ha⟩]
      have hlen : (sortDescBy (fun x : Str × ℚ => x.2)
          (aliases.map (fun p => (p.1, aliasSimilarity (normalize text) p.1)))).length =
          aliases.length := by
        rw [length_sortDescBy, List.length_map]
      rcases hsorted : sortDescBy (fun x : Str × ℚ => x.2)
          (aliases.map (fun p => (p.1, aliasSimilarity (normalize text) p.1))) with
          _ | ⟨⟨tA, tS⟩, rest⟩
      · rw [hsorted] at hlen
        simp only [List.length_nil] at hlen
        exact absurd (List.length_eq_zero.1 hlen.symm) ha
      · have hsnd : (sortDescBy (fun x : Str × ℚ => x.2)
            (aliases.map (fun p => (p.1, aliasSimilarity (normalize text) p.1)))).map
              Prod.snd =
            sortDescBy (fun x => x) (simList aliases (normalize text)) := by
          rw [map_snd_sortDescBy, List.map_map]
          rfl
        rw [hsorted] at hsnd
        have htop : topSimilarity (simList aliases (normalize text)) = tS := by
          unfold topSimilarity
          rw [← hsnd]
          rfl
        have hsec : secondSimilarity (simList aliases (normalize text)) =
            (rest.map Prod.snd).headD 0 := by
          unfold secondSimilarity
          rw [← hsnd]
          rfl
        have hmemA : ∃ p ∈ aliases, p.1 = tA := by
          have hmem : (⟨tA, tS⟩ : Str × ℚ) ∈ sortDescBy (fun x : Str × ℚ => x.2)
              (aliases.map (fun p => (p.1, aliasSimilarity (normalize text) p.1))) := by
            rw [hsorted]
            exact List.mem_cons_self _ _
          rw [mem_sortDescBy] at hmem
          rcases List.mem_map.1 hmem with ⟨p, hp, hpq⟩
          exact ⟨p, hp, congrArg Prod.fst hpq⟩
        rw [hsorted]
        dsimp only
        rw [htop, hsec]
        cases rest with
        | nil =>
          simp only [List.map_nil, List.headD_nil]
          dsimp only
          unfold ambiguityGuard
          simp only [hn, ha, ne_eq, not_false_iff, true_and]
          split_ifs with h1 h2
          · exact iff_of_true (dictGet_isSome aliases tA hmemA) (Or.inl h1)
          · exact iff_of_true (dictGet_isSome aliases tA hmemA) (Or.inr h2)
          · exact iff_of_false (by simp) (by tauto)
        | cons q r =>
          obtain ⟨qa, qs⟩ := q
          simp only [List.map_cons, List.headD_cons]
          dsimp only
          unfold ambiguityGuard
          simp only [hn, ha, ne_eq, not_false_iff, true_and]
          split_ifs with h1 h2
          · exact iff_of_true (dictGet_isSome aliases tA hmemA) (Or.inl h1)
          · exact iff_of_true (dictGet_isSome aliases tA hmemA) (Or.inr h2)
          · exact iff_of_false (by simp) (by tauto)

/-- C1 witness: with the single alias "bangkok" and the misspelled input
"bangkk" (similarity 6/7, no runner-up), the guard accepts and a
province is returned. -/
theorem c1_witness :
    (resolve_province [("bangkok".data, "Bangkok".data)] ("bangkk".data)).isSome = true := by
  have hn : normalize ("bangkk".data) = "bangkk".data := by decide
  have hlev : levenshtein_distance ("bangkk".data) ("bangkok".data) = 1 := by decide
  have hif : (if max (("bangkk".data).length) (("bangkok".data).length) = 0 then 1
      else max (("bangkk".data).length) (("bangkok".data).length)) = 7 := by decide
  have hsim : aliasSimilarity (normalize ("bangkk".data)) ("bangkok".data) = 6/7 := by
    unfold aliasSimilarity
    dsimp only
    rw [hn, hlev, hif]
    norm_num
  have hsimlist : simList [("bangkok".data, "Bangkok".data)] (normalize ("bangkk".data)) =
      [(6 : ℚ)/7] := by
    unfold simList
    rw [List.map_cons, List.map_nil, hsim]
  have h := c1_resolve_ambiguity_guard [("bangkok".data, "Bangkok".data)] ("bangkk".data)
    (by decide)
  rw [h, hsimlist]
  have htv : topSimilarity [(6 : ℚ)/7] = 6/7 := rfl
  have hsv : secondSimilarity [(6 : ℚ)/7] = 0 := rfl
  rw [htv, hsv]
  exact ⟨by decide, by decide, Or.inl ⟨by norm_num, by norm_num⟩⟩

/-! ### Relevance of "1+1=?" and the scope-refusal branch (C7) -/

/-- Normalized names of the six international catalog destinations
(`INTERNATIONAL_DESTINATIONS` in destinations.py), a concrete instance
of `self._normalized_dest_names`. -/
def sampleDestNames : List Str :=
  (["โซล", "ปารีส", "เกียวโต", "ดูไบ", "นิวยอร์ก", "โรม"] : List String).map
    (fun s => normalize s.data)

/-- C7 counterexample: on the catalog of international destinations, the
preprocessed input "1+1=?" scores exactly 0.1 — not strictly below the
0.1 threshold — so the scope-refusal branch of `build_reply` is NOT
triggered, contrary to the claim. -/
theorem c7_counterexample :
    scopeRefusalTriggered (calculate_travel_relevance sampleDestNames
      (normalize_input_text ("1+1=?".data))) = false := by
  have hproc : normalize_input_text ("1+1=?".data) = "1+1=?".data := by decide
  have hkw : (normalizedKeywords.filter
      (fun k => isSub k (normalize ("1+1=?".data)))).length = 0 := by decide
  have hq : questionScoreCount (pyLower ("1+1=?".data)) = 1 := by decide
  have hdest : (sampleDestNames.filter
      (fun d => isSub d (normalize ("1+1=?".data)))).length = 0 := by decide
  have hrel : calculate_travel_relevance sampleDestNames
      (normalize_input_text ("1+1=?".data)) = 1/10 := by
    rw [hproc]
    unfold calculate_travel_relevance
    dsimp only
    rw [hkw, hdest, hq]
    norm_num
  rw [hrel]
  unfold scopeRefusalTriggered
  exact decide_eq_false (by norm_num)

/-- C7 (amended): for every destination catalog none of whose normalized
names occurs in the normalized "1+1=?", the preprocessed input "1+1=?"
has travel relevance exactly 0.1 (only the question-mark pattern fires:
0.5 / 5.0), which equals the refusal threshold; since the branch
requires relevance strictly below 0.1, the refusal is not triggered and
the orchestrator proceeds past the scope check. -/
theorem c7_relevance_at_threshold (destNames : List Str)
    (h : ∀ d ∈ destNames, isSub d (normalize ("1+1=?".data)) = false) :
    calculate_travel_relevance destNames (normalize_input_text ("1+1=?".data)) = 1/10 ∧
    scopeRefusalTriggered (calculate_travel_relevance destNames
      (normalize_input_text ("1+1=?".data))) = false := by
  have hproc : normalize_input_text ("1+1=?".data) = "1+1=?".data := by decide
  have hkw : (normalizedKeywords.filter
      (fun k => isSub k (normalize ("1+1=?".data)))).length = 0 := by decide
  have hq : questionScoreCount (pyLower ("1+1=?".data)) = 1 := by decide
  have hdest : (destNames.filter
      (fun d => isSub d (normalize ("1+1=?".data)))).length = 0 := by
    rw [List.length_eq_zero, List.filter_eq_nil_iff]
    intro a ha
    simp [h a ha]
  have hrel : calculate_travel_relevance destNames
      (normalize_input_text ("1+1=?".data)) = 1/10 := by
    rw [hproc]
    unfold calculate_travel_relevance
    dsimp only
    rw [hkw, hdest, hq]
    norm_num
  refine ⟨hrel, ?_⟩
  rw [hrel]
  unfold scopeRefusalTriggered
  exact decide_eq_false (by norm_num)

/-- C7 witness: the amended statement applied to the international
destination catalog. -/
theorem c7_witness :
    calculate_travel_relevance sampleDestNames (normalize_input_text ("1+1=?".data)) = 1/10 :=
  (c7_relevance_at_threshold sampleDestNames (by decide)).1

end WorldJourney
